import Mathlib

/-!
# Verification of the Bango prediction-market state engine

A shallow embedding of the `bango-arch-contract` repository:

* `src/projects/demo/app/program/src/types.rs` — the persisted data model
  (`Predictions`, `PredictionEvent`, `Outcome`, `Bet`, `EventStatus`,
  `BetType`) together with its Borsh binary codec;
* `src/projects/demo/app/program/src/lib.rs` — the aggregate-level handlers
  `process_create_event`, `process_close_event`, `process_place_bet`;
* `src/projects/demo/app/program/src/mint.rs` — the token ledger
  (`TokenMintDetails`, `mint_tokens`, `burn_tokens`);
* `src/projects/demo/app/program/lib3.rs` — the historical single-event
  iteration (`create_event`, `place_bet`, `resolve_event`, `claim_winnings`).

Bytes are modelled as `List Nat` (each byte `< 256` where well-formedness
matters); u8/u32/u64 fields are modelled on `Nat` and i64 on `Int`.  Rust
panics (`unwrap` on `None`, index out of range, division by zero) are
modelled as the distinguished error `Err.unwrapNone`.  `HashMap` fields are
modelled as association lists; the Borsh encoder sorts entries by key
exactly as the `borsh` crate does for `HashMap`.
-/

namespace Bango

/-- A byte string: a list of naturals (well-formed when every entry `< 256`). -/
abbrev Bytes := List Nat

/-- A 32-byte public key, as used by `arch_program::pubkey::Pubkey`. -/
abbrev Pubkey := Bytes

/-! ## Little-endian integer codec (Borsh u8/u32/u64) -/

/-- Encode `n` as `k` little-endian bytes (Borsh unsigned-integer layout). -/
def encLE : Nat → Nat → Bytes
  | 0, _ => []
  | k + 1, n => n % 256 :: encLE k (n / 256)

/-- Decode `k` little-endian bytes into a natural, returning the rest. -/
def decLE : Nat → Bytes → Option (Nat × Bytes)
  | 0, bs => some (0, bs)
  | _ + 1, [] => none
  | k + 1, b :: bs =>
    match decLE k bs with
    | none => none
    | some (m, rest) => some (b + 256 * m, rest)

/-- Read `k` raw bytes (fixed-size arrays such as `[u8; 32]`). -/
def decRaw (k : Nat) (bs : Bytes) : Option (Bytes × Bytes) :=
  if k ≤ bs.length then some (bs.take k, bs.drop k) else none

theorem encLE_length : ∀ (k n : Nat), (encLE k n).length = k
  | 0, _ => rfl
  | k + 1, n => by simp [encLE, encLE_length k]

theorem decLE_encLE : ∀ (k n : Nat) (r : Bytes),
    decLE k (encLE k n ++ r) = some (n % 256 ^ k, r)
  | 0, n, r => by simp [encLE, decLE, Nat.mod_one]
  | k + 1, n, r => by
    have ih := decLE_encLE k (n / 256) r
    simp only [encLE, List.cons_append, decLE, List.append_eq, ih]
    have h1 : 256 ^ (k + 1) = 256 * 256 ^ k := by ring
    have h2 : n % (256 * 256 ^ k) = n % 256 + 256 * (n / 256 % 256 ^ k) :=
      Nat.mod_mul
    rw [h1, h2]

theorem decLE_encLE_of_lt {k n : Nat} (r : Bytes) (h : n < 256 ^ k) :
    decLE k (encLE k n ++ r) = some (n, r) := by
  rw [decLE_encLE, Nat.mod_eq_of_lt h]

theorem decLE_length : ∀ {k : Nat} {bs : Bytes} {n : Nat} {r : Bytes},
    decLE k bs = some (n, r) → bs.length = k + r.length
  | 0, bs, n, r => by intro h; simp [decLE] at h; simp [h]
  | _ + 1, [], _, _ => by intro h; simp [decLE] at h
  | k + 1, b :: bs, n, r => by
    intro h
    simp only [decLE] at h
    cases hd : decLE k bs with
    | none => rw [hd] at h; simp at h
    | some p =>
      rw [hd] at h
      obtain ⟨m, rest⟩ := p
      simp at h
      have := decLE_length hd
      simp [this, h.2, Nat.add_right_comm, Nat.add_assoc, Nat.add_comm]
      omega

theorem decRaw_append {l : Bytes} {k : Nat} (r : Bytes) (h : l.length = k) :
    decRaw k (l ++ r) = some (l, r) := by
  subst h
  simp [decRaw, List.take_left, List.drop_left]

theorem decRaw_length {k : Nat} {bs l r : Bytes}
    (h : decRaw k bs = some (l, r)) : bs.length = k + r.length ∧ l.length = k := by
  simp only [decRaw] at h
  split at h
  · simp only [Option.some.injEq, Prod.mk.injEq] at h
    obtain ⟨h1, h2⟩ := h
    subst h1; subst h2
    constructor
    · simp; omega
    · simp; omega
  · exact absurd h (by simp)

/-! ## Data model (`types.rs`) -/

/-- `types.rs` `EventStatus` (Borsh enum tags 0..3, declaration order). -/
inductive EventStatus where
  | active
  | closed
  | resolved
  | cancelled
deriving DecidableEq

/-- `types.rs` `BetType` (Borsh enum tags: SELL = 0, BUY = 1). -/
inductive BetType where
  | sell
  | buy
deriving DecidableEq

/-- `types.rs` `Bet`.  The struct literal in `lib.rs::process_place_bet` also
names host-transaction fields (`tx_hex`, `utxo`) that do not exist on the
persisted `types.rs` record; the persisted record declared in `types.rs` is
authoritative for the codec, so those host fields are not part of the model
and the `bet_type` is taken as a handler parameter. -/
structure Bet where
  user : Pubkey
  event_id : Bytes
  outcome_id : Nat
  amount : Nat
  timestamp : Int
  bet_type : BetType
deriving DecidableEq

/-- `types.rs` `Outcome`; the `HashMap<Pubkey, Vec<Bet>>` is modelled as an
association list (the Borsh encoder sorts entries by key). -/
structure Outcome where
  id : Nat
  total_amount : Nat
  bets : List (Pubkey × List Bet)
deriving DecidableEq

/-- `types.rs` `PredictionEvent`. -/
structure PredictionEvent where
  unique_id : Bytes
  creator : Pubkey
  expiry_timestamp : Nat
  outcomes : List Outcome
  total_pool_amount : Nat
  status : EventStatus
  winning_outcome : Option Nat
deriving DecidableEq

/-- `types.rs` `Predictions`, the top-level persisted aggregate. -/
structure Predictions where
  total_predictions : Nat
  predictions : List PredictionEvent
deriving DecidableEq

/-! ## Borsh encoder for the aggregate -/

/-- Key order used by `borsh`'s `HashMap` serializer: entries sorted by key
(`Pubkey` ordering is lexicographic on the 32 bytes). -/
def keyLE (p q : Pubkey × List Bet) : Prop := p.1 ≤ q.1

instance : DecidableRel keyLE := fun p q => inferInstanceAs (Decidable (p.1 ≤ q.1))

instance : IsTotal (Pubkey × List Bet) keyLE := ⟨fun p q => le_total p.1 q.1⟩

instance : IsTrans (Pubkey × List Bet) keyLE := ⟨fun _ _ _ h h' => le_trans h h'⟩

/-- `borsh` serializes a `HashMap` by sorting its entries by key. -/
def sortEntries (l : List (Pubkey × List Bet)) : List (Pubkey × List Bet) :=
  List.insertionSort keyLE l

def encStatus : EventStatus → Bytes
  | .active => [0]
  | .closed => [1]
  | .resolved => [2]
  | .cancelled => [3]

def encBetType : BetType → Bytes
  | .sell => [0]
  | .buy => [1]

def encOptU8 : Option Nat → Bytes
  | none => [0]
  | some v => [1, v % 256]

/-- Borsh i64: 8 little-endian bytes, two's complement. -/
def encI64 (t : Int) : Bytes := encLE 8 (t % (2 ^ 64 : Int)).toNat

/-- Borsh encoding of `types.rs` `Bet`. -/
def encBet (b : Bet) : Bytes :=
  b.user ++ b.event_id ++ encLE 1 b.outcome_id ++ encLE 8 b.amount
    ++ encI64 b.timestamp ++ encBetType b.bet_type

/-- Borsh encoding of one `HashMap` entry: key then `Vec<Bet>` value. -/
def encEntry (e : Pubkey × List Bet) : Bytes :=
  e.1 ++ encLE 4 e.2.length ++ (e.2.map encBet).flatten

/-- Borsh encoding of `types.rs` `Outcome`. -/
def encOutcome (o : Outcome) : Bytes :=
  encLE 1 o.id ++ encLE 8 o.total_amount ++ encLE 4 o.bets.length
    ++ ((sortEntries o.bets).map encEntry).flatten

/-- Borsh encoding of `types.rs` `PredictionEvent`. -/
def encEvent (e : PredictionEvent) : Bytes :=
  e.unique_id ++ e.creator ++ encLE 4 e.expiry_timestamp
    ++ encLE 4 e.outcomes.length ++ (e.outcomes.map encOutcome).flatten
    ++ encLE 8 e.total_pool_amount ++ encStatus e.status
    ++ encOptU8 e.winning_outcome

/-- Borsh encoding of the whole `Predictions` aggregate
(`borsh::to_vec` in `helper_store_predictions`). -/
def encPredictions (p : Predictions) : Bytes :=
  encLE 4 p.total_predictions ++ encLE 4 p.predictions.length
    ++ (p.predictions.map encEvent).flatten

/-! ## Borsh decoder for the aggregate -/

def decStatus : Bytes → Option (EventStatus × Bytes)
  | 0 :: bs => some (.active, bs)
  | 1 :: bs => some (.closed, bs)
  | 2 :: bs => some (.resolved, bs)
  | 3 :: bs => some (.cancelled, bs)
  | _ => none

def decBetType : Bytes → Option (BetType × Bytes)
  | 0 :: bs => some (.sell, bs)
  | 1 :: bs => some (.buy, bs)
  | _ => none

def decOptU8 : Bytes → Option (Option Nat × Bytes)
  | 0 :: bs => some (none, bs)
  | 1 :: v :: bs => some (some v, bs)
  | _ => none

def decI64 (bs : Bytes) : Option (Int × Bytes) :=
  match decLE 8 bs with
  | none => none
  | some (n, r) =>
    some (if n < 2 ^ 63 then (n : Int) else (n : Int) - 2 ^ 64, r)

def decBet (bs : Bytes) : Option (Bet × Bytes) :=
  match decRaw 32 bs with
  | none => none
  | some (user, bs) =>
    match decRaw 32 bs with
    | none => none
    | some (eid, bs) =>
      match decLE 1 bs with
      | none => none
      | some (oid, bs) =>
        match decLE 8 bs with
        | none => none
        | some (amt, bs) =>
          match decI64 bs with
          | none => none
          | some (ts, bs) =>
            match decBetType bs with
            | none => none
            | some (bt, bs) => some (⟨user, eid, oid, amt, ts, bt⟩, bs)

/-- Decode `n` consecutive values with the element decoder `d`. -/
def decList (d : Bytes → Option (α × Bytes)) : Nat → Bytes → Option (List α × Bytes)
  | 0, bs => some ([], bs)
  | n + 1, bs =>
    match d bs with
    | none => none
    | some (a, bs) =>
      match decList d n bs with
      | none => none
      | some (l, r) => some (a :: l, r)

def decEntry (bs : Bytes) : Option ((Pubkey × List Bet) × Bytes) :=
  match decRaw 32 bs with
  | none => none
  | some (k, bs) =>
    match decLE 4 bs with
    | none => none
    | some (n, bs) =>
      match decList decBet n bs with
      | none => none
      | some (l, r) => some ((k, l), r)

def decOutcome (bs : Bytes) : Option (Outcome × Bytes) :=
  match decLE 1 bs with
  | none => none
  | some (id, bs) =>
    match decLE 8 bs with
    | none => none
    | some (total, bs) =>
      match decLE 4 bs with
      | none => none
      | some (n, bs) =>
        match decList decEntry n bs with
        | none => none
        | some (entries, r) => some (⟨id, total, entries⟩, r)

def decEvent (bs : Bytes) : Option (PredictionEvent × Bytes) :=
  match decRaw 32 bs with
  | none => none
  | some (uid, bs) =>
    match decRaw 32 bs with
    | none => none
    | some (creator, bs) =>
      match decLE 4 bs with
      | none => none
      | some (expiry, bs) =>
        match decLE 4 bs with
        | none => none
        | some (n, bs) =>
          match decList decOutcome n bs with
          | none => none
          | some (outs, bs) =>
            match decLE 8 bs with
            | none => none
            | some (pool, bs) =>
              match decStatus bs with
              | none => none
              | some (st, bs) =>
                match decOptU8 bs with
                | none => none
                | some (w, r) => some (⟨uid, creator, expiry, outs, pool, st, w⟩, r)

def decPredictionsPartial (bs : Bytes) : Option (Predictions × Bytes) :=
  match decLE 4 bs with
  | none => none
  | some (total, bs) =>
    match decLE 4 bs with
    | none => none
    | some (n, bs) =>
      match decList decEvent n bs with
      | none => none
      | some (evs, r) => some (⟨total, evs⟩, r)

/-- `Predictions::try_from_slice`: Borsh `try_from_slice` succeeds only when
the whole buffer is consumed. -/
def decodePredictions (bs : Bytes) : Option Predictions :=
  match decPredictionsPartial bs with
  | some (p, []) => some p
  | _ => none

/-- `helper_deserialize_predictions` in `lib.rs`: an empty buffer decodes to
the empty aggregate (bootstrap rule), otherwise strict decoding. -/
def helper_deserialize_predictions (bs : Bytes) : Option Predictions :=
  if bs.length > 0 then decodePredictions bs else some ⟨0, []⟩

/-! ## Well-formedness and canonical (sorted-map) forms -/

/-- A well-formed 32-byte string (`Pubkey`, `[u8; 32]`). -/
def WFKey (l : Bytes) : Prop := l.length = 32 ∧ ∀ b ∈ l, b < 256

/-- Field ranges of a `types.rs` `Bet` (u8 / u64 / i64 fields in range). -/
def WFBet (b : Bet) : Prop :=
  WFKey b.user ∧ WFKey b.event_id ∧ b.outcome_id < 256 ∧ b.amount < 2 ^ 64 ∧
    -2 ^ 63 ≤ b.timestamp ∧ b.timestamp < 2 ^ 63

def WFEntry (e : Pubkey × List Bet) : Prop :=
  WFKey e.1 ∧ e.2.length < 2 ^ 32 ∧ ∀ b ∈ e.2, WFBet b

/-- Well-formed `Outcome`: field ranges plus `HashMap` key uniqueness. -/
def WFOutcome (o : Outcome) : Prop :=
  o.id < 256 ∧ o.total_amount < 2 ^ 64 ∧ o.bets.length < 2 ^ 32 ∧
    (∀ e ∈ o.bets, WFEntry e) ∧ (o.bets.map Prod.fst).Nodup

def WFEvent (e : PredictionEvent) : Prop :=
  WFKey e.unique_id ∧ WFKey e.creator ∧ e.expiry_timestamp < 2 ^ 32 ∧
    e.outcomes.length < 2 ^ 32 ∧ (∀ o ∈ e.outcomes, WFOutcome o) ∧
    e.total_pool_amount < 2 ^ 64 ∧ (∀ v, e.winning_outcome = some v → v < 256)

def WFPredictions (p : Predictions) : Prop :=
  p.total_predictions < 2 ^ 32 ∧ p.predictions.length < 2 ^ 32 ∧
    ∀ e ∈ p.predictions, WFEvent e

/-- Canonical form of an outcome: its `HashMap` entries in encoder order. -/
def canonOutcome (o : Outcome) : Outcome := ⟨o.id, o.total_amount, sortEntries o.bets⟩

def canonEvent (e : PredictionEvent) : PredictionEvent :=
  { e with outcomes := e.outcomes.map canonOutcome }

def canonPredictions (p : Predictions) : Predictions :=
  { p with predictions := p.predictions.map canonEvent }

/-! ## Codec round-trip -/

theorem decStatus_enc (s : EventStatus) (r : Bytes) :
    decStatus (encStatus s ++ r) = some (s, r) := by cases s <;> rfl

theorem decBetType_enc (b : BetType) (r : Bytes) :
    decBetType (encBetType b ++ r) = some (b, r) := by cases b <;> rfl

theorem decOptU8_enc (w : Option Nat) (r : Bytes) (h : ∀ v, w = some v → v < 256) :
    decOptU8 (encOptU8 w ++ r) = some (w, r) := by
  cases w with
  | none => rfl
  | some v => simp [encOptU8, decOptU8, Nat.mod_eq_of_lt (h v rfl)]

theorem pow256_4 : (256 : Nat) ^ 4 = 2 ^ 32 := by norm_num

theorem pow256_8 : (256 : Nat) ^ 8 = 2 ^ 64 := by norm_num

theorem decI64_enc (t : Int) (r : Bytes) (h1 : -2 ^ 63 ≤ t) (h2 : t < 2 ^ 63) :
    decI64 (encI64 t ++ r) = some (t, r) := by
  have hnn : (0 : Int) ≤ t % 2 ^ 64 := Int.emod_nonneg t (by norm_num)
  have hlt : t % 2 ^ 64 < 2 ^ 64 := Int.emod_lt_of_pos t (by norm_num)
  have hmn : ((t % 2 ^ 64).toNat : Int) = t % 2 ^ 64 := Int.toNat_of_nonneg hnn
  have hb : (t % 2 ^ 64).toNat < 256 ^ 8 := by rw [pow256_8]; omega
  unfold decI64 encI64
  simp only [decLE_encLE_of_lt _ hb, Option.some.injEq, Prod.mk.injEq, and_true]
  split <;> omega

theorem decBet_enc (b : Bet) (r : Bytes) (h : WFBet b) :
    decBet (encBet b ++ r) = some (b, r) := by
  obtain ⟨⟨hul, _⟩, ⟨hel, _⟩, ho, ha, ht1, ht2⟩ := h
  have ho' : b.outcome_id < 256 ^ 1 := by simpa using ho
  have ha' : b.amount < 256 ^ 8 := by rw [pow256_8]; exact ha
  simp only [encBet, List.append_assoc, decBet, decRaw_append _ hul,
    decRaw_append _ hel, decLE_encLE_of_lt _ ho', decLE_encLE_of_lt _ ha',
    decI64_enc _ _ ht1 ht2, decBetType_enc]

theorem decList_enc {α : Type} {P : α → Prop} {d : Bytes → Option (α × Bytes)}
    {encF : α → Bytes} (canonF : α → α)
    (hd : ∀ a r, P a → d (encF a ++ r) = some (canonF a, r)) :
    ∀ (l : List α) (r : Bytes), (∀ a ∈ l, P a) →
      decList d l.length ((l.map encF).flatten ++ r) = some (l.map canonF, r)
  | [], r, _ => by simp [decList]
  | a :: l, r, h => by
    have ih := decList_enc canonF hd l r (fun x hx => h x (by simp [hx]))
    simp only [List.map_cons, List.flatten_cons, List.length_cons,
      List.append_assoc, decList, hd a _ (h a (by simp)), ih]

theorem decEntry_enc (e : Pubkey × List Bet) (r : Bytes) (h : WFEntry e) :
    decEntry (encEntry e ++ r) = some (e, r) := by
  obtain ⟨⟨hkl, _⟩, hn, hb⟩ := h
  have hn' : e.2.length < 256 ^ 4 := by rw [pow256_4]; exact hn
  simp only [encEntry, List.append_assoc, decEntry, decRaw_append _ hkl,
    decLE_encLE_of_lt _ hn',
    decList_enc (fun x => x) (fun a r ha => decBet_enc a r ha) e.2 r hb]
  simp

theorem decOutcome_enc (o : Outcome) (r : Bytes) (h : WFOutcome o) :
    decOutcome (encOutcome o ++ r) = some (canonOutcome o, r) := by
  obtain ⟨hid, ht, hn, he, _⟩ := h
  have hid' : o.id < 256 ^ 1 := by simpa using hid
  have ht' : o.total_amount < 256 ^ 8 := by rw [pow256_8]; exact ht
  have hlen : (sortEntries o.bets).length = o.bets.length :=
    (List.perm_insertionSort keyLE o.bets).length_eq
  have hn' : (sortEntries o.bets).length < 256 ^ 4 := by
    rw [pow256_4, hlen]; exact hn
  have hmem : ∀ x ∈ sortEntries o.bets, WFEntry x := fun x hx =>
    he x ((List.perm_insertionSort keyLE o.bets).mem_iff.mp hx)
  have hdl := decList_enc (fun x => x)
    (fun a r ha => decEntry_enc a r ha) (sortEntries o.bets) r hmem
  simp only [List.map_id_fun, id] at hdl
  simp only [encOutcome, List.append_assoc, decOutcome,
    decLE_encLE_of_lt _ hid', decLE_encLE_of_lt _ ht', ← hlen,
    decLE_encLE_of_lt _ hn', hdl, canonOutcome]
  simp [canonOutcome]

theorem decEvent_enc (e : PredictionEvent) (r : Bytes) (h : WFEvent e) :
    decEvent (encEvent e ++ r) = some (canonEvent e, r) := by
  obtain ⟨⟨hul, _⟩, ⟨hcl, _⟩, hx, hn, ho, hp, hw⟩ := h
  have hx' : e.expiry_timestamp < 256 ^ 4 := by rw [pow256_4]; exact hx
  have hn' : e.outcomes.length < 256 ^ 4 := by rw [pow256_4]; exact hn
  have hp' : e.total_pool_amount < 256 ^ 8 := by rw [pow256_8]; exact hp
  simp only [encEvent, List.append_assoc, decEvent, decRaw_append _ hul,
    decRaw_append _ hcl, decLE_encLE_of_lt _ hx', decLE_encLE_of_lt _ hn',
    decList_enc canonOutcome (fun a r ha => decOutcome_enc a r ha) e.outcomes _ ho,
    decLE_encLE_of_lt _ hp', decStatus_enc, decOptU8_enc _ _ hw]
  rfl

theorem decPredictionsPartial_enc (p : Predictions) (r : Bytes) (h : WFPredictions p) :
    decPredictionsPartial (encPredictions p ++ r) = some (canonPredictions p, r) := by
  obtain ⟨ht, hn, he⟩ := h
  have ht' : p.total_predictions < 256 ^ 4 := by rw [pow256_4]; exact ht
  have hn' : p.predictions.length < 256 ^ 4 := by rw [pow256_4]; exact hn
  simp only [encPredictions, List.append_assoc, decPredictionsPartial,
    decLE_encLE_of_lt _ ht', decLE_encLE_of_lt _ hn',
    decList_enc canonEvent (fun a r ha => decEvent_enc a r ha) p.predictions _ he]
  rfl

theorem decodePredictions_enc (p : Predictions) (h : WFPredictions p) :
    decodePredictions (encPredictions p) = some (canonPredictions p) := by
  have := decPredictionsPartial_enc p [] h
  simp only [List.append_nil] at this
  simp [decodePredictions, this]

/-! ## Encoder invariance under canonicalization and map permutation -/

theorem sortEntries_sorted (l : List (Pubkey × List Bet)) :
    List.Sorted keyLE (sortEntries l) :=
  List.sorted_insertionSort keyLE l

theorem sortEntries_idem (l : List (Pubkey × List Bet)) :
    sortEntries (sortEntries l) = sortEntries l :=
  (sortEntries_sorted l).insertionSort_eq

theorem sortEntries_length (l : List (Pubkey × List Bet)) :
    (sortEntries l).length = l.length :=
  (List.perm_insertionSort keyLE l).length_eq

theorem encOutcome_canon (o : Outcome) :
    encOutcome (canonOutcome o) = encOutcome o := by
  simp [encOutcome, canonOutcome, sortEntries_idem, sortEntries_length]

theorem encEvent_canon (e : PredictionEvent) :
    encEvent (canonEvent e) = encEvent e := by
  have hmap : (e.outcomes.map canonOutcome).map encOutcome = e.outcomes.map encOutcome := by
    rw [List.map_map]
    exact List.map_congr_left fun o _ => encOutcome_canon o
  simp [encEvent, canonEvent, hmap]

theorem encPredictions_canon (p : Predictions) :
    encPredictions (canonPredictions p) = encPredictions p := by
  have hmap : (p.predictions.map canonEvent).map encEvent = p.predictions.map encEvent := by
    rw [List.map_map]
    exact List.map_congr_left fun e _ => encEvent_canon e
  simp [encPredictions, canonPredictions, hmap]

/-- The strict key order used to identify equal sorted entry lists. -/
def keyLT (p q : Pubkey × List Bet) : Prop := p.1 < q.1

instance : IsAntisymm (Pubkey × List Bet) keyLT :=
  ⟨fun _ _ h h' => absurd (lt_trans h h') (lt_irrefl _)⟩

theorem sortEntries_perm_eq {l₁ l₂ : List (Pubkey × List Bet)}
    (hp : l₁.Perm l₂) (hnd : (l₁.map Prod.fst).Nodup) :
    sortEntries l₁ = sortEntries l₂ := by
  have hperm : (sortEntries l₁).Perm (sortEntries l₂) :=
    ((List.perm_insertionSort keyLE l₁).trans hp).trans
      (List.perm_insertionSort keyLE l₂).symm
  have hnd₁ : ((sortEntries l₁).map Prod.fst).Nodup :=
    (((List.perm_insertionSort keyLE l₁).map Prod.fst).nodup_iff).mpr hnd
  have hnd₂ : ((sortEntries l₂).map Prod.fst).Nodup :=
    ((hperm.map Prod.fst).nodup_iff).mp hnd₁
  have hs₁ : List.Pairwise keyLT (sortEntries l₁) := by
    have hne := (List.pairwise_map).mp hnd₁
    exact ((sortEntries_sorted l₁).and hne).imp fun h => lt_of_le_of_ne h.1 h.2
  have hs₂ : List.Pairwise keyLT (sortEntries l₂) := by
    have hne := (List.pairwise_map).mp hnd₂
    exact ((sortEntries_sorted l₂).and hne).imp fun h => lt_of_le_of_ne h.1 h.2
  exact List.eq_of_perm_of_sorted hperm hs₁ hs₂

/-! ## Decoded values reproduce the consumed length

Any successful decode consumes exactly as many bytes as the re-encoding of
the decoded value occupies (entry order does not change encoded size). -/

theorem decStatus_length {bs : Bytes} {s : EventStatus} {r : Bytes}
    (h : decStatus bs = some (s, r)) : bs.length = (encStatus s).length + r.length := by
  unfold decStatus at h
  split at h <;>
    first
    | (simp only [Option.some.injEq, Prod.mk.injEq] at h
       obtain ⟨h1, h2⟩ := h
       subst h2
       simp [← h1, encStatus] <;> omega)
    | simp at h

theorem decBetType_length {bs : Bytes} {b : BetType} {r : Bytes}
    (h : decBetType bs = some (b, r)) : bs.length = (encBetType b).length + r.length := by
  unfold decBetType at h
  split at h <;>
    first
    | (simp only [Option.some.injEq, Prod.mk.injEq] at h
       obtain ⟨h1, h2⟩ := h
       subst h2
       simp [← h1, encBetType] <;> omega)
    | simp at h

theorem decOptU8_length {bs : Bytes} {w : Option Nat} {r : Bytes}
    (h : decOptU8 bs = some (w, r)) : bs.length = (encOptU8 w).length + r.length := by
  unfold decOptU8 at h
  split at h
  · simp only [Option.some.injEq, Prod.mk.injEq] at h
    obtain ⟨h1, h2⟩ := h
    subst h2
    simp [← h1, encOptU8] <;> omega
  · simp only [Option.some.injEq, Prod.mk.injEq] at h
    obtain ⟨h1, h2⟩ := h
    subst h2
    simp [← h1, encOptU8] <;> omega
  · exact absurd h (by simp)

theorem decI64_length {bs : Bytes} {t : Int} {r : Bytes}
    (h : decI64 bs = some (t, r)) : bs.length = (encI64 t).length + r.length := by
  unfold decI64 at h
  cases hd : decLE 8 bs with
  | none => rw [hd] at h; simp at h
  | some p =>
    rw [hd] at h
    obtain ⟨n, rest⟩ := p
    try dsimp only at h
    simp only [Option.some.injEq, Prod.mk.injEq] at h
    have := decLE_length hd
    simp [encI64, encLE_length, this, ← h.2]

theorem decBet_length {bs : Bytes} {b : Bet} {r : Bytes}
    (h : decBet bs = some (b, r)) : bs.length = (encBet b).length + r.length := by
  unfold decBet at h
  cases h1 : decRaw 32 bs with
  | none => rw [h1] at h; simp at h
  | some p1 =>
    rw [h1] at h
    obtain ⟨user, bs1⟩ := p1
    try dsimp only at h
    cases h2 : decRaw 32 bs1 with
    | none => rw [h2] at h; simp at h
    | some p2 =>
      rw [h2] at h
      obtain ⟨eid, bs2⟩ := p2
      try dsimp only at h
      cases h3 : decLE 1 bs2 with
      | none => rw [h3] at h; simp at h
      | some p3 =>
        rw [h3] at h
        obtain ⟨oid, bs3⟩ := p3
        try dsimp only at h
        cases h4 : decLE 8 bs3 with
        | none => rw [h4] at h; simp at h
        | some p4 =>
          rw [h4] at h
          obtain ⟨amt, bs4⟩ := p4
          try dsimp only at h
          cases h5 : decI64 bs4 with
          | none => rw [h5] at h; simp at h
          | some p5 =>
            rw [h5] at h
            obtain ⟨ts, bs5⟩ := p5
            try dsimp only at h
            cases h6 : decBetType bs5 with
            | none => rw [h6] at h; simp at h
            | some p6 =>
              rw [h6] at h
              obtain ⟨bt, bs6⟩ := p6
              try dsimp only at h
              simp only [Option.some.injEq, Prod.mk.injEq] at h
              obtain ⟨hb, hr⟩ := h
              subst hb; subst hr
              have l1 := decRaw_length h1
              have l2 := decRaw_length h2
              have l3 := decLE_length h3
              have l4 := decLE_length h4
              have l5 := decI64_length h5
              have l6 := decBetType_length h6
              simp only [encBet, List.length_append, encLE_length]
              simp [encI64, encLE_length] at l5 ⊢
              omega

theorem decList_length {α : Type} {d : Bytes → Option (α × Bytes)} (encF : α → Bytes)
    (hd : ∀ {bs a r}, d bs = some (a, r) → bs.length = (encF a).length + r.length) :
    ∀ {n : Nat} {bs : Bytes} {l : List α} {r : Bytes},
      decList d n bs = some (l, r) →
      bs.length = ((l.map encF).flatten).length + r.length ∧ l.length = n
  | 0, bs, l, r => by
    intro h
    simp [decList] at h
    simp [h.1, h.2]
  | n + 1, bs, l, r => by
    intro h
    simp only [decList] at h
    cases h1 : d bs with
    | none => rw [h1] at h; simp at h
    | some p1 =>
      rw [h1] at h
      obtain ⟨a, bs1⟩ := p1
      try dsimp only at h
      cases h2 : decList d n bs1 with
      | none => rw [h2] at h; simp at h
      | some p2 =>
        rw [h2] at h
        obtain ⟨l1, r1⟩ := p2
        try dsimp only at h
        simp only [Option.some.injEq, Prod.mk.injEq] at h
        obtain ⟨hl, hr⟩ := h
        subst hl; subst hr
        have ih := decList_length encF hd h2
        have h1l := hd h1
        constructor
        · simp only [List.map_cons, List.flatten_cons, List.length_append]
          omega
        · simp [ih.2]

theorem decEntry_length {bs : Bytes} {e : Pubkey × List Bet} {r : Bytes}
    (h : decEntry bs = some (e, r)) : bs.length = (encEntry e).length + r.length := by
  unfold decEntry at h
  cases h1 : decRaw 32 bs with
  | none => rw [h1] at h; simp at h
  | some p1 =>
    rw [h1] at h
    obtain ⟨k, bs1⟩ := p1
    try dsimp only at h
    cases h2 : decLE 4 bs1 with
    | none => rw [h2] at h; simp at h
    | some p2 =>
      rw [h2] at h
      obtain ⟨n, bs2⟩ := p2
      try dsimp only at h
      cases h3 : decList decBet n bs2 with
      | none => rw [h3] at h; simp at h
      | some p3 =>
        rw [h3] at h
        obtain ⟨l, r1⟩ := p3
        try dsimp only at h
        simp only [Option.some.injEq, Prod.mk.injEq] at h
        obtain ⟨he, hr⟩ := h
        subst he; subst hr
        have l1 := decRaw_length h1
        have l2 := decLE_length h2
        have l3 := decList_length encBet (fun hx => decBet_length hx) h3
        simp only [encEntry, List.length_append, encLE_length]
        omega

/-- Sorting the entries of a map does not change its encoded size. -/
theorem sortEntries_enc_length (l : List (Pubkey × List Bet)) :
    (((sortEntries l).map encEntry).flatten).length = ((l.map encEntry).flatten).length := by
  have hp : (((sortEntries l).map encEntry).map List.length).Perm
      ((l.map encEntry).map List.length) :=
    ((List.perm_insertionSort keyLE l).map encEntry).map List.length
  simp only [List.length_flatten]
  exact hp.sum_eq

theorem decOutcome_length {bs : Bytes} {o : Outcome} {r : Bytes}
    (h : decOutcome bs = some (o, r)) : bs.length = (encOutcome o).length + r.length := by
  unfold decOutcome at h
  cases h1 : decLE 1 bs with
  | none => rw [h1] at h; simp at h
  | some p1 =>
    rw [h1] at h
    obtain ⟨id, bs1⟩ := p1
    try dsimp only at h
    cases h2 : decLE 8 bs1 with
    | none => rw [h2] at h; simp at h
    | some p2 =>
      rw [h2] at h
      obtain ⟨total, bs2⟩ := p2
      try dsimp only at h
      cases h3 : decLE 4 bs2 with
      | none => rw [h3] at h; simp at h
      | some p3 =>
        rw [h3] at h
        obtain ⟨n, bs3⟩ := p3
        try dsimp only at h
        cases h4 : decList decEntry n bs3 with
        | none => rw [h4] at h; simp at h
        | some p4 =>
          rw [h4] at h
          obtain ⟨entries, r1⟩ := p4
          try dsimp only at h
          simp only [Option.some.injEq, Prod.mk.injEq] at h
          obtain ⟨ho, hr⟩ := h
          subst ho; subst hr
          have l1 := decLE_length h1
          have l2 := decLE_length h2
          have l3 := decLE_length h3
          have l4 := decList_length encEntry (fun hx => decEntry_length hx) h4
          simp only [encOutcome, List.length_append, encLE_length,
            sortEntries_enc_length]
          omega

theorem decEvent_length {bs : Bytes} {e : PredictionEvent} {r : Bytes}
    (h : decEvent bs = some (e, r)) : bs.length = (encEvent e).length + r.length := by
  unfold decEvent at h
  cases h1 : decRaw 32 bs with
  | none => rw [h1] at h; simp at h
  | some p1 =>
    rw [h1] at h
    obtain ⟨uid, bs1⟩ := p1
    try dsimp only at h
    cases h2 : decRaw 32 bs1 with
    | none => rw [h2] at h; simp at h
    | some p2 =>
      rw [h2] at h
      obtain ⟨creator, bs2⟩ := p2
      try dsimp only at h
      cases h3 : decLE 4 bs2 with
      | none => rw [h3] at h; simp at h
      | some p3 =>
        rw [h3] at h
        obtain ⟨expiry, bs3⟩ := p3
        try dsimp only at h
        cases h4 : decLE 4 bs3 with
        | none => rw [h4] at h; simp at h
        | some p4 =>
          rw [h4] at h
          obtain ⟨n, bs4⟩ := p4
          try dsimp only at h
          cases h5 : decList decOutcome n bs4 with
          | none => rw [h5] at h; simp at h
          | some p5 =>
            rw [h5] at h
            obtain ⟨outs, bs5⟩ := p5
            try dsimp only at h
            cases h6 : decLE 8 bs5 with
            | none => rw [h6] at h; simp at h
            | some p6 =>
              rw [h6] at h
              obtain ⟨pool, bs6⟩ := p6
              try dsimp only at h
              cases h7 : decStatus bs6 with
              | none => rw [h7] at h; simp at h
              | some p7 =>
                rw [h7] at h
                obtain ⟨st, bs7⟩ := p7
                try dsimp only at h
                cases h8 : decOptU8 bs7 with
                | none => rw [h8] at h; simp at h
                | some p8 =>
                  rw [h8] at h
                  obtain ⟨w, bs8⟩ := p8
                  try dsimp only at h
                  simp only [Option.some.injEq, Prod.mk.injEq] at h
                  obtain ⟨he, hr⟩ := h
                  subst he; subst hr
                  have l1 := decRaw_length h1
                  have l2 := decRaw_length h2
                  have l3 := decLE_length h3
                  have l4 := decLE_length h4
                  have l5 := decList_length encOutcome (fun hx => decOutcome_length hx) h5
                  have l6 := decLE_length h6
                  have l7 := decStatus_length h7
                  have l8 := decOptU8_length h8
                  simp only [encEvent, List.length_append, encLE_length]
                  omega

theorem decPredictionsPartial_length {bs : Bytes} {p : Predictions} {r : Bytes}
    (h : decPredictionsPartial bs = some (p, r)) :
    bs.length = (encPredictions p).length + r.length := by
  unfold decPredictionsPartial at h
  cases h1 : decLE 4 bs with
  | none => rw [h1] at h; simp at h
  | some p1 =>
    rw [h1] at h
    obtain ⟨total, bs1⟩ := p1
    try dsimp only at h
    cases h2 : decLE 4 bs1 with
    | none => rw [h2] at h; simp at h
    | some p2 =>
      rw [h2] at h
      obtain ⟨n, bs2⟩ := p2
      try dsimp only at h
      cases h3 : decList decEvent n bs2 with
      | none => rw [h3] at h; simp at h
      | some p3 =>
        rw [h3] at h
        obtain ⟨evs, r1⟩ := p3
        try dsimp only at h
        simp only [Option.some.injEq, Prod.mk.injEq] at h
        obtain ⟨hp, hr⟩ := h
        subst hp; subst hr
        have l1 := decLE_length h1
        have l2 := decLE_length h2
        have l3 := decList_length encEvent (fun hx => decEvent_length hx) h3
        simp only [encPredictions, List.length_append, encLE_length]
        omega

/-- A fully consumed decode means the buffer is exactly as long as the
re-encoding of the decoded aggregate. -/
theorem decodePredictions_length {bs : Bytes} {p : Predictions}
    (h : decodePredictions bs = some p) : bs.length = (encPredictions p).length := by
  unfold decodePredictions at h
  cases hd : decPredictionsPartial bs with
  | none => rw [hd] at h; simp at h
  | some pr =>
    rw [hd] at h
    obtain ⟨q, rest⟩ := pr
    cases rest with
    | nil =>
      simp only [Option.some.injEq] at h
      subst h
      simpa using decPredictionsPartial_length hd
    | cons a t => simp at h

/-! ## Logical equality: same value up to `HashMap` entry order -/

/-- Two outcomes carry the same logical value when they agree on all fields
and their bet maps hold the same entries, in any order. -/
def Outcome.LogicalEq (o o' : Outcome) : Prop :=
  o.id = o'.id ∧ o.total_amount = o'.total_amount ∧ o.bets.Perm o'.bets

instance : DecidableRel Outcome.LogicalEq := fun o o' => by
  unfold Outcome.LogicalEq
  infer_instance

instance forall₂Decidable {α β : Type} {R : α → β → Prop}
    [∀ a b, Decidable (R a b)] : ∀ (l₁ : List α) (l₂ : List β), Decidable (List.Forall₂ R l₁ l₂)
  | [], [] => isTrue List.Forall₂.nil
  | [], _ :: _ => isFalse fun h => by cases h
  | _ :: _, [] => isFalse fun h => by cases h
  | a :: l₁, b :: l₂ =>
    have : Decidable (List.Forall₂ R l₁ l₂) := forall₂Decidable l₁ l₂
    decidable_of_iff (R a b ∧ List.Forall₂ R l₁ l₂) List.forall₂_cons.symm

def PredictionEvent.LogicalEq (e e' : PredictionEvent) : Prop :=
  e.unique_id = e'.unique_id ∧ e.creator = e'.creator ∧
    e.expiry_timestamp = e'.expiry_timestamp ∧
    List.Forall₂ Outcome.LogicalEq e.outcomes e'.outcomes ∧
    e.total_pool_amount = e'.total_pool_amount ∧ e.status = e'.status ∧
    e.winning_outcome = e'.winning_outcome

instance : DecidableRel PredictionEvent.LogicalEq := fun e e' => by
  unfold PredictionEvent.LogicalEq
  infer_instance

/-- Two aggregates carry the same logical value when they differ at most in
the traversal order of the per-outcome bet `HashMap`s. -/
def Predictions.LogicalEq (p q : Predictions) : Prop :=
  p.total_predictions = q.total_predictions ∧
    List.Forall₂ PredictionEvent.LogicalEq p.predictions q.predictions

instance : DecidableRel Predictions.LogicalEq := fun p q => by
  unfold Predictions.LogicalEq
  infer_instance

theorem encOutcome_logicalEq {o o' : Outcome} (hw : WFOutcome o)
    (h : Outcome.LogicalEq o o') : encOutcome o = encOutcome o' := by
  obtain ⟨h1, h2, h3⟩ := h
  have hsort := sortEntries_perm_eq h3 hw.2.2.2.2
  simp [encOutcome, h1, h2, hsort, h3.length_eq]

theorem encOutcome_map_logicalEq : ∀ {l l' : List Outcome},
    (∀ o ∈ l, WFOutcome o) → List.Forall₂ Outcome.LogicalEq l l' →
    l.map encOutcome = l'.map encOutcome := by
  intro l l' hw h
  induction h with
  | nil => rfl
  | cons hab _ ih =>
    simp only [List.map_cons]
    rw [encOutcome_logicalEq (hw _ (by simp)) hab,
      ih fun o ho => hw o (by simp [ho])]

theorem encEvent_logicalEq {e e' : PredictionEvent} (hw : WFEvent e)
    (h : PredictionEvent.LogicalEq e e') : encEvent e = encEvent e' := by
  obtain ⟨h1, h2, h3, h4, h5, h6, h7⟩ := h
  simp [encEvent, h1, h2, h3, h5, h6, h7, h4.length_eq,
    encOutcome_map_logicalEq hw.2.2.2.2.1 h4]

theorem encEvent_map_logicalEq : ∀ {l l' : List PredictionEvent},
    (∀ e ∈ l, WFEvent e) → List.Forall₂ PredictionEvent.LogicalEq l l' →
    l.map encEvent = l'.map encEvent := by
  intro l l' hw h
  induction h with
  | nil => rfl
  | cons hab _ ih =>
    simp only [List.map_cons]
    rw [encEvent_logicalEq (hw _ (by simp)) hab,
      ih fun e he => hw e (by simp [he])]

/-- Encoding is insensitive to `HashMap` traversal order: logically equal
well-formed aggregates have identical encodings. -/
theorem encPredictions_logicalEq {p q : Predictions} (hw : WFPredictions p)
    (h : Predictions.LogicalEq p q) : encPredictions p = encPredictions q := by
  obtain ⟨h1, h2⟩ := h
  simp [encPredictions, h1, h2.length_eq, encEvent_map_logicalEq hw.2.2 h2]

/-! ## Errors

One constructor per distinct error value produced by the source.
`ProgramError::BorshIoError(msg)` values are distinguished by their message
(`borshEventClosed` = "Event is closed.", `borshNoUtxo` = "No UTXO Passed",
`insufficientBalance` = "Insufficient Balance!", `accountNotExists` =
"Account Not Exists!").  Rust panics (`unwrap` on `None`, index out of
range, division by zero) are modelled as `unwrapNone`. -/
inductive Err where
  | missingRequiredSignature
  | invalidAccountData
  | invalidArgument
  | unwrapNone
  | borshEventClosed
  | borshNoUtxo
  | borshDeserializeFailed
  | insufficientBalance
  | accountNotExists
  | accountAlreadyInitialized
  | illegalOwner
  | invalidInstruction
  | insufficientFunds
  | eventAlreadyExists
  | eventNotFound
  | invalidOutcome
  | eventNotResolved
  | eventAlreadyResolved
deriving DecidableEq

/-- Replace the element at index `i` (identity when out of range), as a
`Vec` index-assignment / `iter_mut` in-place mutation does. -/
def modifyAt (f : α → α) : List α → Nat → List α
  | [], _ => []
  | a :: l, 0 => f a :: l
  | a :: l, n + 1 => a :: modifyAt f l n

/-! ## Event-ledger handlers (`lib.rs`), in-memory aggregate semantics

Host-side account plumbing is abstracted: `isSigner` stands for
`creator_account.is_signer` / `better_account.is_signer`, and `utxoOk` for
the two UTXO host checks (`validate_utxo_ownership` plus the zero-UTXO
comparison) and the fee-transaction deserialization in `process_place_bet`,
all of which touch only host data, not the persisted record. -/

/-- `process_create_event` (lib.rs:212-258), in-memory mutation: pushes a new
Active event with `num_outcomes` zero-balance outcomes and increments
`total_predictions`.  There is no `unique_id` duplicate check. -/
def process_create_event (st : Predictions) (creatorKey : Pubkey) (isSigner : Bool)
    (unique_id : Bytes) (expiry_timestamp : Nat) (num_outcomes : Nat) :
    Except Err Predictions :=
  if isSigner = false then .error .missingRequiredSignature
  else
    let event : PredictionEvent :=
      { unique_id := unique_id, creator := creatorKey,
        expiry_timestamp := expiry_timestamp,
        outcomes := (List.range num_outcomes).map fun i => ⟨i, 0, []⟩,
        total_pool_amount := 0, status := .active, winning_outcome := none }
    .ok ⟨st.total_predictions + 1, st.predictions ++ [event]⟩

/-- `process_close_event` (lib.rs:260-285): requires only that the caller
signed (the caller key is never compared with the event creator), panics
(`position(..).unwrap()`) when no event has the given id, sets the found
event's status to Closed and decrements `total_predictions` (u32 subtraction;
truncated subtraction on `Nat` here — no theorem relies on the underflow
case). -/
def process_close_event (st : Predictions) (isSigner : Bool) (unique_id : Bytes) :
    Except Err Predictions :=
  if isSigner = false then .error .missingRequiredSignature
  else
    match st.predictions.findIdx? (fun e => e.unique_id == unique_id) with
    | none => .error .unwrapNone
    | some i =>
      .ok ⟨st.total_predictions - 1,
        modifyAt (fun e => { e with status := .closed }) st.predictions i⟩

/-- `HashMap::get_mut` + push, or `insert(key, vec![bet])` on a missing key
(lib.rs:404-411). -/
def insertBet (bets : List (Pubkey × List Bet)) (k : Pubkey) (b : Bet) :
    List (Pubkey × List Bet) :=
  if bets.any (fun e => e.1 == k) then
    bets.map fun e => if e.1 == k then (e.1, e.2 ++ [b]) else e
  else bets ++ [(k, [b])]

/-- The per-event part of `process_place_bet` (lib.rs:351-411): status
check, UTXO host checks, bet construction (`timestamp` is the Bitcoin block
height), outcome lookup by `id` (`find(..).unwrap()`), bet insertion.  The
outcome totals and the event pool are never touched. -/
def placeBetEvent (e : PredictionEvent) (betterKey : Pubkey) (utxoOk : Bool)
    (outcome_id : Nat) (amount : Nat) (blockHeight : Int) (side : BetType) :
    Except Err PredictionEvent :=
  if e.status ≠ .active then .error .borshEventClosed
  else if utxoOk = false then .error .invalidArgument
  else
    let bet : Bet := ⟨betterKey, e.unique_id, outcome_id, amount, blockHeight, side⟩
    match e.outcomes.findIdx? (fun o => o.id == outcome_id) with
    | none => .error .unwrapNone
    | some j =>
      let outs := modifyAt (fun o => { o with bets := insertBet o.bets betterKey bet }) e.outcomes j
      .ok { e with outcomes := outs }

/-- `process_place_bet` (lib.rs:326-418), in-memory aggregate semantics:
signer check, event lookup (`find(..).unwrap()`), then `placeBetEvent`. -/
def process_place_bet_core (st : Predictions) (betterKey : Pubkey)
    (isSigner utxoOk : Bool) (unique_id : Bytes) (outcome_id amount : Nat)
    (blockHeight : Int) (side : BetType) : Except Err Predictions :=
  if isSigner = false then .error .missingRequiredSignature
  else
    match st.predictions.findIdx? (fun e => e.unique_id == unique_id) with
    | none => .error .unwrapNone
    | some i =>
      match st.predictions[i]? with
      | none => .error .unwrapNone
      | some e =>
        (placeBetEvent e betterKey utxoOk outcome_id amount blockHeight side).map
          fun e' => ⟨st.total_predictions, modifyAt (fun _ => e') st.predictions i⟩

/-- `process_place_bet` (lib.rs:326-418) at the storage level: the account
bytes are decoded as the whole `Predictions` aggregate
(lib.rs:342-343), but on success only the single modified event is
re-serialized over the start of the account data
(`event.serialize(&mut *event_account.data.borrow_mut())`, lib.rs:413-415),
failing with `InvalidAccountData` when the event no longer fits. -/
def process_place_bet (data : Bytes) (betterKey : Pubkey) (isSigner utxoOk : Bool)
    (unique_id : Bytes) (outcome_id amount : Nat) (blockHeight : Int)
    (side : BetType) : Except Err Bytes :=
  if isSigner = false then .error .missingRequiredSignature
  else
    match decodePredictions data with
    | none => .error .invalidAccountData
    | some events =>
      match events.predictions.findIdx? (fun e => e.unique_id == unique_id) with
      | none => .error .unwrapNone
      | some i =>
        match events.predictions[i]? with
        | none => .error .unwrapNone
        | some e =>
          match placeBetEvent e betterKey utxoOk outcome_id amount blockHeight side with
          | .error err => .error err
          | .ok modifiedEvent =>
            let enc := encEvent modifiedEvent
            if enc.length ≤ data.length then .ok (enc ++ data.drop enc.length)
            else .error .invalidAccountData

/-! ## Token ledger (`mint.rs`) -/

/-- `mint.rs` `MintStatus`. -/
inductive MintStatus where
  | ongoing
  | finished
deriving DecidableEq

/-- `mint.rs` `TokenMintDetails` (`HashMap`s as association lists). -/
structure TokenMintDetails where
  owner : Bytes
  status : MintStatus
  supply : Nat
  circulating_supply : Nat
  ticker : String
  decimals : Nat
  token_metadata : List (String × Bytes)
  balances : List (Pubkey × Nat)
deriving DecidableEq

def lookupBalance (balances : List (Pubkey × Nat)) (k : Pubkey) : Option Nat :=
  (balances.find? fun e => e.1 == k).map Prod.snd

def setBalance (balances : List (Pubkey × Nat)) (k : Pubkey) (v : Nat) :
    List (Pubkey × Nat) :=
  if balances.any (fun e => e.1 == k) then
    balances.map fun e => if e.1 == k then (e.1, v) else e
  else balances ++ [(k, v)]

/-- `initialize_mint` (mint.rs:61-91): fails on a non-empty account or an
owner mismatch (both host-account facts, taken as booleans), otherwise
builds `TokenMintDetails::new(input, Ongoing, {})` with
`circulating_supply = 0`. -/
def initialize_mint (accountDataEmpty ownerMatches : Bool) (owner : Bytes)
    (supply : Nat) (ticker : String) (decimals : Nat) : Except Err TokenMintDetails :=
  if accountDataEmpty = false then .error .accountAlreadyInitialized
  else if ownerMatches = false then .error .illegalOwner
  else .ok ⟨owner, .ongoing, supply, 0, ticker, decimals, [], []⟩

/-- `mint_tokens` (mint.rs:93-129): credits `balances[mint_address] += amount`
and nothing else — `circulating_supply` and `supply` are never read or
written, and no `SupplyExceeded` rejection exists. -/
def mint_tokens (t : TokenMintDetails) (mint_address : Pubkey) (amount : Nat) :
    Except Err TokenMintDetails :=
  match lookupBalance t.balances mint_address with
  | some balance =>
    .ok { t with balances := setBalance t.balances mint_address (balance + amount) }
  | none => .ok { t with balances := setBalance t.balances mint_address amount }

/-- `burn_tokens` (mint.rs:133-178): fails when the balance is missing or
smaller than `amount`, otherwise debits. -/
def burn_tokens (t : TokenMintDetails) (mint_address : Pubkey) (amount : Nat) :
    Except Err TokenMintDetails :=
  match lookupBalance t.balances mint_address with
  | some balance =>
    if balance < amount then .error .insufficientBalance
    else .ok { t with balances := setBalance t.balances mint_address (balance - amount) }
  | none => .error .accountNotExists

/-! ## The historical single-event iteration (`lib3.rs`) -/

/-- `lib3.rs` `EventStatus`: note the extra `Created` initial state and the
absence of `Closed`. -/
inductive EventStatus3 where
  | created
  | active
  | resolved
  | cancelled
deriving DecidableEq

/-- `lib3.rs` `PredictionEvent`: string-labelled outcomes with a parallel
`outcome_balances` vector. -/
structure PredictionEvent3 where
  unique_id : Bytes
  creator : Pubkey
  expiry_timestamp : Nat
  outcomes : List String
  total_pool_amount : Nat
  status : EventStatus3
  winning_outcome : Option String
  outcome_balances : List Nat
deriving DecidableEq

/-- `create_event` (lib3.rs:148-207): requires a signing creator and an
empty event account, then stores a `Created` event with zeroed balances. -/
def create_event (creatorKey : Pubkey) (isSigner accountEmpty : Bool)
    (unique_id : Bytes) (expiry_timestamp : Nat) (outcomes : List String) :
    Except Err PredictionEvent3 :=
  if isSigner = false then .error .missingRequiredSignature
  else if accountEmpty = false then .error .eventAlreadyExists
  else .ok ⟨unique_id, creatorKey, expiry_timestamp, outcomes, 0, .created, none,
    List.replicate outcomes.length 0⟩

/-- `place_bet` (lib3.rs:210-258): signer check, Active check (error
`EventNotFound`), outcome lookup by label (`InvalidOutcome`), host lamport
transfer (`transferOk`), then `total_pool_amount += amount` and
`outcome_balances[idx] += amount` (lib3.rs:250-258). -/
def place_bet (e : PredictionEvent3) (isSigner transferOk : Bool) (amount : Nat)
    (chosen_outcome : String) : Except Err PredictionEvent3 :=
  if isSigner = false then .error .missingRequiredSignature
  else if e.status ≠ .active then .error .eventNotFound
  else
    match e.outcomes.findIdx? (fun o => o == chosen_outcome) with
    | none => .error .invalidOutcome
    | some idx =>
      if transferOk = false then .error .invalidArgument
      else if h : idx < e.outcome_balances.length then
        let nb := e.outcome_balances.set idx (e.outcome_balances[idx] + amount)
        .ok { e with total_pool_amount := e.total_pool_amount + amount, outcome_balances := nb }
      else .error .unwrapNone

/-- `resolve_event` (lib3.rs:262-298): resolver must be the creator, status
must be Active (else `EventAlreadyResolved`), the winning outcome must be a
valid label, then status becomes Resolved and the outcome is recorded. -/
def resolve_event (e : PredictionEvent3) (resolverKey : Pubkey)
    (winning_outcome : String) : Except Err PredictionEvent3 :=
  if resolverKey ≠ e.creator then .error .missingRequiredSignature
  else if e.status ≠ .active then .error .eventAlreadyResolved
  else if winning_outcome ∉ e.outcomes then .error .invalidOutcome
  else .ok { e with status := .resolved, winning_outcome := some winning_outcome }

/-- `claim_winnings` (lib3.rs:301-349): requires status Resolved; both
`winner_outcome_balance` and `total_winning_pool` are the same
`outcome_balances` entry for the winning outcome (the claimant's own stake
is never consulted — the lib3 event does not even store per-bettor bets);
the payout `winner_outcome_balance * total_pool_amount / total_winning_pool`
is transferred to the caller and the event record is never modified (no
`claimed` marking).  A zero winning balance panics (division by zero). -/
def claim_winnings (e : PredictionEvent3) ( _event_id : Bytes) :
    Except Err (Nat × PredictionEvent3) :=
  if e.status ≠ .resolved then .error .eventNotResolved
  else
    match e.winning_outcome with
    | none => .error .eventNotResolved
    | some w =>
      match e.outcomes.findIdx? (fun o => o == w) with
      | none => .error .invalidOutcome
      | some idx =>
        if h : idx < e.outcome_balances.length then
          let winner_outcome_balance := e.outcome_balances[idx]
          let total_winning_pool := e.outcome_balances[idx]
          if total_winning_pool = 0 then .error .unwrapNone
          else .ok (winner_outcome_balance * e.total_pool_amount / total_winning_pool, e)
        else .error .unwrapNone

/-! ## Reachability -/

/-- Aggregate states reachable from the empty bootstrap aggregate through
the `lib.rs` handlers. -/
inductive ReachableA : Predictions → Prop where
  | boot : ReachableA ⟨0, []⟩
  | create (s : Predictions) (ck : Pubkey) (sg : Bool) (uid : Bytes) (exp n : Nat)
      (s' : Predictions) : ReachableA s →
      process_create_event s ck sg uid exp n = .ok s' → ReachableA s'
  | close (s : Predictions) (sg : Bool) (uid : Bytes) (s' : Predictions) :
      ReachableA s → process_close_event s sg uid = .ok s' → ReachableA s'
  | bet (s : Predictions) (bk : Pubkey) (sg ut : Bool) (uid : Bytes) (oid amt : Nat)
      (bh : Int) (side : BetType) (s' : Predictions) : ReachableA s →
      process_place_bet_core s bk sg ut uid oid amt bh side = .ok s' → ReachableA s'

/-- Single-event states reachable through the `lib3.rs` handlers. -/
inductive Reachable3 : PredictionEvent3 → Prop where
  | create (ck : Pubkey) (sg ae : Bool) (uid : Bytes) (exp : Nat) (outs : List String)
      (e : PredictionEvent3) : create_event ck sg ae uid exp outs = .ok e → Reachable3 e
  | bet (e : PredictionEvent3) (sg tr : Bool) (amt : Nat) (ch : String)
      (e' : PredictionEvent3) : Reachable3 e →
      place_bet e sg tr amt ch = .ok e' → Reachable3 e'
  | resolve (e : PredictionEvent3) (rk : Pubkey) (w : String) (e' : PredictionEvent3) :
      Reachable3 e → resolve_event e rk w = .ok e' → Reachable3 e'
  | claim (e : PredictionEvent3) (eid : Bytes) (pay : Nat) (e' : PredictionEvent3) :
      Reachable3 e → claim_winnings e eid = .ok (pay, e') → Reachable3 e'

/-- Pool conservation for a `types.rs` event. -/
def poolInv (e : PredictionEvent) : Prop :=
  e.total_pool_amount = (e.outcomes.map Outcome.total_amount).sum

/-- Pool conservation for a `lib3.rs` event. -/
def poolInv3 (e : PredictionEvent3) : Prop :=
  e.total_pool_amount = e.outcome_balances.sum

instance (e : PredictionEvent) : Decidable (poolInv e) := by
  unfold poolInv
  infer_instance

instance (e : PredictionEvent3) : Decidable (poolInv3 e) := by
  unfold poolInv3
  infer_instance

/-! ## Pool conservation -/

theorem modifyAt_mem {f : α → α} :
    ∀ {l : List α} {i : Nat}, ∀ x ∈ modifyAt f l i, x ∈ l ∨ ∃ y ∈ l, x = f y := by
  intro l
  induction l with
  | nil => intro i x hx; simp [modifyAt] at hx
  | cons a t ih =>
    intro i x hx
    cases i with
    | zero =>
      simp only [modifyAt, List.mem_cons] at hx
      cases hx with
      | inl h => exact Or.inr ⟨a, by simp, h⟩
      | inr h => exact Or.inl (by simp [h])
    | succ n =>
      simp only [modifyAt, List.mem_cons] at hx
      cases hx with
      | inl h => exact Or.inl (by simp [h])
      | inr h =>
        cases ih x h with
        | inl h' => exact Or.inl (by simp [h'])
        | inr h' =>
          obtain ⟨y, hy, hxy⟩ := h'
          exact Or.inr ⟨y, by simp [hy], hxy⟩

theorem modifyAt_map {g : α → β} {f : α → α} (hg : ∀ a, g (f a) = g a) :
    ∀ (l : List α) (i : Nat), (modifyAt f l i).map g = l.map g := by
  intro l
  induction l with
  | nil => intro i; simp [modifyAt]
  | cons a t ih =>
    intro i
    cases i with
    | zero => simp [modifyAt, hg]
    | succ n => simp [modifyAt, ih]

theorem sum_set_add : ∀ (l : List Nat) (i : Nat) (h : i < l.length)
    (a : Nat), (l.set i (l[i] + a)).sum = l.sum + a := by
  intro l
  induction l with
  | nil => intro i h; simp at h
  | cons x t ih =>
    intro i h a
    cases i with
    | zero => simp [List.set]; omega
    | succ n =>
      simp only [List.set, List.sum_cons, List.getElem_cons_succ]
      rw [ih n (by simpa using h) a]
      omega

/-- The per-event mutation of `process_place_bet` keeps the pool and all
outcome totals untouched, hence preserves pool conservation. -/
theorem placeBetEvent_poolInv {e e' : PredictionEvent} {bk : Pubkey} {ut : Bool}
    {oid amt : Nat} {bh : Int} {side : BetType}
    (h : placeBetEvent e bk ut oid amt bh side = .ok e') (hi : poolInv e) :
    poolInv e' := by
  unfold placeBetEvent at h
  split at h
  · exact absurd h (by simp)
  · split at h
    · exact absurd h (by simp)
    · split at h
      · exact absurd h (by simp)
      · simp only [Except.ok.injEq] at h
        subst h
        unfold poolInv at hi ⊢
        dsimp only
        rw [modifyAt_map (g := Outcome.total_amount)
          (f := fun o => { o with bets := insertBet o.bets bk ⟨bk, e.unique_id, oid, amt, bh, side⟩ })
          (fun o => rfl)]
        exact hi

theorem process_create_event_poolInv {s s' : Predictions} {ck : Pubkey} {sg : Bool}
    {uid : Bytes} {exp n : Nat}
    (h : process_create_event s ck sg uid exp n = .ok s')
    (hi : ∀ e ∈ s.predictions, poolInv e) : ∀ e ∈ s'.predictions, poolInv e := by
  unfold process_create_event at h
  split at h
  · exact absurd h (by simp)
  · simp only [Except.ok.injEq] at h
    subst h
    intro e he
    simp only [List.mem_append, List.mem_singleton] at he
    cases he with
    | inl h' => exact hi e h'
    | inr h' =>
      subst h'
      unfold poolInv
      simp [List.map_map, Function.comp_def]

theorem process_close_event_poolInv {s s' : Predictions} {sg : Bool} {uid : Bytes}
    (h : process_close_event s sg uid = .ok s')
    (hi : ∀ e ∈ s.predictions, poolInv e) : ∀ e ∈ s'.predictions, poolInv e := by
  unfold process_close_event at h
  split at h
  · exact absurd h (by simp)
  · split at h
    · exact absurd h (by simp)
    · simp only [Except.ok.injEq] at h
      subst h
      intro e he
      cases modifyAt_mem e he with
      | inl h' => exact hi e h'
      | inr h' =>
        obtain ⟨y, hy, hxy⟩ := h'
        subst hxy
        exact hi y hy

theorem process_place_bet_core_poolInv {s s' : Predictions} {bk : Pubkey}
    {sg ut : Bool} {uid : Bytes} {oid amt : Nat} {bh : Int} {side : BetType}
    (h : process_place_bet_core s bk sg ut uid oid amt bh side = .ok s')
    (hi : ∀ e ∈ s.predictions, poolInv e) : ∀ e ∈ s'.predictions, poolInv e := by
  unfold process_place_bet_core at h
  split at h
  · exact absurd h (by simp)
  · split at h
    · exact absurd h (by simp)
    · split at h
      · exact absurd h (by simp)
      · rename_i i hfind e0 hget
        cases hpb : placeBetEvent e0 bk ut oid amt bh side with
        | error err => rw [hpb] at h; exact absurd h (by simp [Except.map])
        | ok e1 =>
          rw [hpb] at h
          simp only [Except.map, Except.ok.injEq] at h
          subst h
          intro e he
          cases modifyAt_mem e he with
          | inl h' => exact hi e h'
          | inr h' =>
            obtain ⟨y, hy, hxy⟩ := h'
            subst hxy
            exact placeBetEvent_poolInv hpb (hi e0 (List.getElem?_mem hget))

/-- Every `lib.rs`-reachable aggregate satisfies pool conservation. -/
theorem reachableA_poolInv {s : Predictions} (h : ReachableA s) :
    ∀ e ∈ s.predictions, poolInv e := by
  induction h with
  | boot => intro e he; simp at he
  | create _ _ _ _ _ _ _ _ hop ih => exact process_create_event_poolInv hop ih
  | close _ _ _ _ _ hop ih => exact process_close_event_poolInv hop ih
  | bet _ _ _ _ _ _ _ _ _ _ _ hop ih => exact process_place_bet_core_poolInv hop ih

/-- Every `lib3.rs`-reachable event satisfies pool conservation. -/
theorem reachable3_poolInv {e : PredictionEvent3} (h : Reachable3 e) : poolInv3 e := by
  induction h with
  | create _ _ _ _ _ _ _ hop =>
    unfold create_event at hop
    split at hop
    · exact absurd hop (by simp)
    · split at hop
      · exact absurd hop (by simp)
      · simp only [Except.ok.injEq] at hop
        subst hop
        unfold poolInv3
        simp
  | bet _ _ _ _ _ _ _ hop ih =>
    unfold place_bet at hop
    split at hop
    · exact absurd hop (by simp)
    · split at hop
      · exact absurd hop (by simp)
      · split at hop
        · exact absurd hop (by simp)
        · split at hop
          · exact absurd hop (by simp)
          · split at hop
            · rename_i idx hfind htr hlt
              simp only [Except.ok.injEq] at hop
              subst hop
              unfold poolInv3 at ih ⊢
              simp only
              rw [sum_set_add _ idx hlt _]
              omega
            · exact absurd hop (by simp)
  | resolve _ _ _ _ _ hop ih =>
    unfold resolve_event at hop
    split at hop
    · exact absurd hop (by simp)
    · split at hop
      · exact absurd hop (by simp)
      · split at hop
        · exact absurd hop (by simp)
        · simp only [Except.ok.injEq] at hop
          subst hop
          exact ih
  | claim e0 eid pay e1 _ hop ih =>
    unfold claim_winnings at hop
    split at hop
    · exact absurd hop (by simp)
    · split at hop
      · exact absurd hop (by simp)
      · split at hop
        · exact absurd hop (by simp)
        · rename_i idx hfind
          by_cases hlt : idx < e0.outcome_balances.length
          · rw [dif_pos hlt] at hop
            dsimp only at hop
            split at hop
            · exact absurd hop (by simp)
            · simp only [Except.ok.injEq, Prod.mk.injEq] at hop
              rw [← hop.2]
              exact ih
          · rw [dif_neg hlt] at hop
            exact absurd hop (by simp)

deriving instance DecidableEq for Except

/-! ## Decidability instances for the well-formedness predicates -/

instance (l : Bytes) : Decidable (WFKey l) := by
  unfold WFKey
  infer_instance

instance (b : Bet) : Decidable (WFBet b) := by
  unfold WFBet
  infer_instance

instance (e : Pubkey × List Bet) : Decidable (WFEntry e) := by
  unfold WFEntry
  infer_instance

instance (o : Outcome) : Decidable (WFOutcome o) := by
  unfold WFOutcome
  infer_instance

instance (e : PredictionEvent) : Decidable (WFEvent e) := by
  unfold WFEvent
  infer_instance

instance (p : Predictions) : Decidable (WFPredictions p) := by
  unfold WFPredictions
  infer_instance

/-! ## Concrete fixtures -/

def key0 : Pubkey := List.replicate 32 0

def key1 : Pubkey := 1 :: List.replicate 31 0

def uid0 : Bytes := List.replicate 32 0

def uid1 : Bytes := 1 :: List.replicate 31 0

def strA : String := "A"

def strB : String := "B"

/-! ## Claim C2 — pool conservation -/

/-- **C2.**  For every state reachable from the empty aggregate by any
sequence of the five operations, every event satisfies
`total_pool_amount == Σ outcome.total_amount`: for the `lib.rs` aggregate
handlers (`process_create_event`, `process_close_event`,
`process_place_bet_core`) over all reachable aggregates, and for the
`lib3.rs` single-event handlers (`create_event`, `place_bet`,
`resolve_event`, `claim_winnings`) over all reachable events. -/
theorem c2_pool_conservation :
    (∀ s : Predictions, ReachableA s → ∀ e ∈ s.predictions, poolInv e) ∧
    (∀ e : PredictionEvent3, Reachable3 e → poolInv3 e) :=
  ⟨fun _ h => reachableA_poolInv h, fun _ h => reachable3_poolInv h⟩

def c2Bet : Bet := ⟨key1, uid0, 0, 5, 0, .buy⟩

def c2Event : PredictionEvent :=
  { unique_id := uid0, creator := key0, expiry_timestamp := 0,
    outcomes := [⟨0, 0, []⟩, ⟨1, 0, []⟩], total_pool_amount := 0,
    status := .active, winning_outcome := none }

def c2S1 : Predictions := ⟨1, [c2Event]⟩

def c2EventBet : PredictionEvent :=
  { unique_id := uid0, creator := key0, expiry_timestamp := 0,
    outcomes := [⟨0, 0, [(key1, [c2Bet])]⟩, ⟨1, 0, []⟩], total_pool_amount := 0,
    status := .active, winning_outcome := none }

def c2S2 : Predictions := ⟨1, [c2EventBet]⟩

def c2Event3 : PredictionEvent3 :=
  ⟨uid0, key0, 0, [strA, strB], 0, .created, none, [0, 0]⟩

theorem c2_pool_conservation_witness : poolInv c2EventBet ∧ poolInv3 c2Event3 := by
  have h1 : ReachableA c2S2 := by
    apply ReachableA.bet c2S1 key1 true true uid0 0 5 0 BetType.buy c2S2
    · apply ReachableA.create ⟨0, []⟩ key0 true uid0 0 2 c2S1 ReachableA.boot
      decide
    · decide
  have h3 : Reachable3 c2Event3 := by
    apply Reachable3.create key0 true true uid0 0 [strA, strB] c2Event3
    decide
  exact ⟨c2_pool_conservation.1 c2S2 h1 c2EventBet (by decide),
    c2_pool_conservation.2 c2Event3 h3⟩

/-! ## Claim C10 — codec determinism and round-trip -/

/-- **C10.**  The Borsh encode of the `Predictions` aggregate is
deterministic: two well-formed aggregates carrying the same logical value
(equal up to `HashMap` traversal order) encode to identical bytes.  And for
every byte sequence previously produced by `encPredictions`,
`decodePredictions` succeeds and re-encoding the result reproduces the
bytes (`encode(decode(bytes)) == bytes`). -/
theorem c10_codec_deterministic_roundtrip :
    (∀ p q : Predictions, WFPredictions p → Predictions.LogicalEq p q →
      encPredictions p = encPredictions q) ∧
    (∀ (bs : Bytes) (p : Predictions), WFPredictions p → bs = encPredictions p →
      ∃ w, decodePredictions bs = some w ∧ encPredictions w = bs) := by
  constructor
  · exact fun p q hw h => encPredictions_logicalEq hw h
  · intro bs p hw hbs
    subst hbs
    exact ⟨canonPredictions p, decodePredictions_enc p hw, encPredictions_canon p⟩

def c10Bet : Bet := ⟨key0, uid0, 0, 1, 0, .buy⟩

def c10P : Predictions :=
  ⟨1, [{ unique_id := uid0, creator := key0, expiry_timestamp := 0,
         outcomes := [⟨0, 3, [(key1, []), (key0, [c10Bet])]⟩],
         total_pool_amount := 3, status := .active, winning_outcome := none }]⟩

def c10Q : Predictions :=
  ⟨1, [{ unique_id := uid0, creator := key0, expiry_timestamp := 0,
         outcomes := [⟨0, 3, [(key0, [c10Bet]), (key1, [])]⟩],
         total_pool_amount := 3, status := .active, winning_outcome := none }]⟩

theorem c10_codec_witness :
    encPredictions c10P = encPredictions c10Q ∧
    ∃ w, decodePredictions (encPredictions c10P) = some w ∧
      encPredictions w = encPredictions c10P :=
  ⟨c10_codec_deterministic_roundtrip.1 c10P c10Q (by decide) (by decide),
    c10_codec_deterministic_roundtrip.2 (encPredictions c10P) c10P (by decide) rfl⟩

/-! ## Claim C1 — claim_winnings payout -/

/-- Spec payout example: outcome stakes `{A: 30, B: 70}`, pool `100`,
winning outcome `A`, resolved. -/
def c1Event : PredictionEvent3 :=
  ⟨uid0, key0, 0, [strA, strB], 100, .resolved, some strA, [30, 70]⟩

/-- **C1** (code bug).  On the spec's own example (a claimant holding 10 of
the 30 winning stake should receive `floor(10*100/30) = 33`, and 0 on a
repeat claim), `claim_winnings` pays
`outcome_balances[A] * pool / outcome_balances[A] = 100` — the whole pool —
to any caller, returns the event record unchanged (no bet is marked
claimed; the lib3 event stores no per-bettor stakes at all), so a second
identical call pays 100 again rather than 0. -/
theorem c1_claim_winnings_pays_whole_pool :
    claim_winnings c1Event uid0 = .ok (100, c1Event) ∧ (10 * 100 / 30 : Nat) = 33 := by
  constructor
  · decide
  · decide

/-! ## Claim C3 — no duplicate unique_id check -/

def c3Event : PredictionEvent :=
  { unique_id := uid0, creator := key0, expiry_timestamp := 0,
    outcomes := [⟨0, 0, []⟩, ⟨1, 0, []⟩], total_pool_amount := 0,
    status := .active, winning_outcome := none }

def c3S1 : Predictions := ⟨1, [c3Event]⟩

def c3S2 : Predictions := ⟨2, [c3Event, c3Event]⟩

/-- **C3** (code bug).  `process_create_event` performs no `unique_id`
lookup at all: creating the same id twice succeeds both times and leaves
two events with the same `unique_id` in the aggregate, instead of failing
the second call with `DuplicateEvent`. -/
theorem c3_create_event_no_duplicate_check :
    process_create_event ⟨0, []⟩ key0 true uid0 0 2 = .ok c3S1 ∧
    process_create_event c3S1 key0 true uid0 0 2 = .ok c3S2 ∧
    (c3S2.predictions.filter fun e => e.unique_id == uid0).length = 2 := by
  refine ⟨by decide, by decide, by decide⟩

/-! ## Claim C4 — place_bet does not touch the token ledger -/

def c4S0 : Predictions :=
  ⟨1, [{ unique_id := uid0, creator := key0, expiry_timestamp := 0,
         outcomes := [⟨0, 0, []⟩, ⟨1, 0, []⟩], total_pool_amount := 0,
         status := .active, winning_outcome := none }]⟩

def c4Bet : Bet := ⟨key1, uid0, 0, 5, 0, .buy⟩

def c4S1 : Predictions :=
  ⟨1, [{ unique_id := uid0, creator := key0, expiry_timestamp := 0,
         outcomes := [⟨0, 0, [(key1, [c4Bet])]⟩, ⟨1, 0, []⟩], total_pool_amount := 0,
         status := .active, winning_outcome := none }]⟩

/-- **C4** (code bug).  A BUY bet of amount 5 on an Active event succeeds
without consulting any token balance (`process_place_bet` takes no token
account and never calls `burn_tokens`, so no `InsufficientFunds` path
exists), and it credits neither the chosen outcome's `total_amount` nor the
event's `total_pool_amount` — both stay 0; only the bet record is
appended. -/
theorem c4_place_bet_ignores_token_ledger :
    process_place_bet_core c4S0 key1 true true uid0 0 5 0 .buy = .ok c4S1 ∧
    c4S1.predictions.map PredictionEvent.total_pool_amount = [0] ∧
    c4S1.predictions.map (fun e => e.outcomes.map Outcome.total_amount) = [[0, 0]] := by
  refine ⟨by decide, by decide, by decide⟩

/-! ## Claim C6 — mint_tokens has no supply cap -/

def c6Ticker : String := "BNG"

def c6T0 : TokenMintDetails := ⟨key0, .ongoing, 100, 0, c6Ticker, 0, [], []⟩

def c6T1 : TokenMintDetails := ⟨key0, .ongoing, 100, 0, c6Ticker, 0, [], [(key1, 150)]⟩

/-- **C6** (code bug).  Minting 150 against a ledger with `supply = 100`
succeeds (no `SupplyExceeded` rejection exists in `mint_tokens`), credits
`balances[target] = 150 > supply`, and `circulating_supply` stays 0 — it is
never increased. -/
theorem c6_mint_tokens_no_supply_cap :
    mint_tokens c6T0 key1 150 = .ok c6T1 ∧ c6T1.circulating_supply = 0 ∧
    c6T1.supply = 100 ∧ ∀ b ∈ c6T1.balances, c6T1.supply < b.2 := by
  refine ⟨by decide, by decide, by decide, by decide⟩

/-! ## Claim C7 — close_event side effects -/

def c7Event : PredictionEvent :=
  { unique_id := uid0, creator := key0, expiry_timestamp := 0,
    outcomes := [⟨0, 0, []⟩], total_pool_amount := 0,
    status := .active, winning_outcome := none }

def c7S0 : Predictions := ⟨1, [c7Event]⟩

def c7S1 : Predictions :=
  ⟨0, [{ unique_id := uid0, creator := key0, expiry_timestamp := 0,
         outcomes := [⟨0, 0, []⟩], total_pool_amount := 0,
         status := .closed, winning_outcome := none }]⟩

/-- **C7** (code bug).  `process_close_event` never reads the caller's key
(its only authorization input is the signer flag — there is no
`caller == event.creator` comparison to fail with `Unauthorized`), it
decrements `total_predictions` (1 becomes 0 here) instead of leaving it
unchanged, and a missing `unique_id` panics via `position(..).unwrap()`
instead of returning `EventNotFound`. -/
theorem c7_close_event_decrements_and_panics :
    process_close_event c7S0 true uid0 = .ok c7S1 ∧
    c7S1.total_predictions = 0 ∧ c7S0.total_predictions = 1 ∧
    process_close_event c7S0 true uid1 = .error .unwrapNone := by
  refine ⟨by decide, by decide, by decide, by decide⟩

/-! ## Claim C8 — resolve_event -/

def c8Created : PredictionEvent3 := ⟨uid0, key0, 0, [strA], 0, .created, none, [0]⟩

/-- **C8** (counterexample).  `lib3.rs` `create_event` stores events with
status `Created`, and `resolve_event` requires status `Active`: the very
first `resolve_event` call by the creator with a valid winning outcome on a
freshly created event fails with `EventAlreadyResolved` instead of
succeeding. -/
theorem c8_first_resolve_fails_on_created_event :
    resolve_event c8Created key0 strA = .error .eventAlreadyResolved := by decide

/-- **C8** (amended).  For every *Active* event, resolve_event by the
creator with a valid winning outcome succeeds, sets status Resolved and
records the winning outcome; every subsequent resolve_event call *by the
creator* on the resulting event fails with `EventAlreadyResolved` and
returns no modified event (callers other than the creator fail earlier with
the signature error). -/
theorem c8_resolve_event_active_then_terminal (e : PredictionEvent3) (rk : Pubkey)
    (w : String) (hs : e.status = .active) (hr : rk = e.creator) (hw : w ∈ e.outcomes) :
    resolve_event e rk w =
      .ok { e with status := .resolved, winning_outcome := some w } ∧
    ∀ w' : String,
      resolve_event { e with status := .resolved, winning_outcome := some w }
        e.creator w' = .error .eventAlreadyResolved := by
  constructor
  · simp [resolve_event, hs, hr, hw]
  · intro w'
    simp [resolve_event]

def c8Active : PredictionEvent3 := ⟨uid0, key0, 0, [strA], 0, .active, none, [0]⟩

def c8Resolved : PredictionEvent3 := ⟨uid0, key0, 0, [strA], 0, .resolved, some strA, [0]⟩

theorem c8_resolve_event_witness :
    resolve_event c8Active key0 strA = .ok c8Resolved ∧
    resolve_event c8Resolved key0 strB = .error .eventAlreadyResolved := by
  have h := c8_resolve_event_active_then_terminal c8Active key0 strA
    (by decide) (by decide) (by decide)
  exact ⟨h.1, h.2 strB⟩

/-! ## Claim C9 — invalid outcome id panics -/

def c9S : Predictions :=
  ⟨1, [{ unique_id := uid0, creator := key0, expiry_timestamp := 0,
         outcomes := [⟨0, 0, []⟩, ⟨1, 0, []⟩], total_pool_amount := 0,
         status := .active, winning_outcome := none }]⟩

/-- **C9** (code bug).  A bet on an existing Active event with 2 outcomes
and `outcome_id = 5` hits `outcomes.iter_mut().find(..).unwrap()` on `None`
— a panic, modelled as `Err.unwrapNone` — rather than returning the
`InvalidOutcome` error the spec requires. -/
theorem c9_place_bet_invalid_outcome_panics :
    process_place_bet_core c9S key1 true true uid0 5 10 0 .buy = .error .unwrapNone ∧
    Err.unwrapNone ≠ Err.invalidOutcome := by
  refine ⟨by decide, by decide⟩

/-! ## Claim C5 — the place_bet write corrupts the aggregate slot -/

theorem modifyAt_length {f : α → α} : ∀ (l : List α) (i : Nat),
    (modifyAt f l i).length = l.length := by
  intro l
  induction l with
  | nil => intro i; simp [modifyAt]
  | cons a t ih =>
    intro i
    cases i with
    | zero => simp [modifyAt]
    | succ n => simp [modifyAt, ih]

theorem encStatus_length (s : EventStatus) : (encStatus s).length = 1 := by
  cases s <;> rfl

theorem encBet_length_pos (b : Bet) : 0 < (encBet b).length := by
  cases hb : b.bet_type <;>
    simp [encBet, encI64, encLE_length, encBetType, hb]

theorem encEntry_append_bet (e : Pubkey × List Bet) (b : Bet) :
    (encEntry (e.1, e.2 ++ [b])).length = (encEntry e).length + (encBet b).length := by
  simp [encEntry, encLE_length, List.length_append]
  omega

theorem entLen_map_ge (k : Pubkey) (b : Bet) :
    ∀ t : List (Pubkey × List Bet),
    ((t.map encEntry).flatten).length ≤
      (((t.map fun e => if e.1 == k then (e.1, e.2 ++ [b]) else e).map encEntry).flatten).length := by
  intro t
  induction t with
  | nil => simp
  | cons a s ih =>
    simp only [List.map_cons, List.flatten_cons, List.length_append]
    by_cases hk : (a.1 == k) = true
    · rw [if_pos hk]
      have := encEntry_append_bet a b
      have hpos := encBet_length_pos b
      omega
    · rw [if_neg hk]
      omega

theorem entLen_map_grow (k : Pubkey) (b : Bet) :
    ∀ l : List (Pubkey × List Bet), (l.any fun e => e.1 == k) = true →
    ((l.map encEntry).flatten).length <
      (((l.map fun e => if e.1 == k then (e.1, e.2 ++ [b]) else e).map encEntry).flatten).length := by
  intro l
  induction l with
  | nil => intro h; simp at h
  | cons a t ih =>
    intro h
    simp only [List.any_cons, Bool.or_eq_true] at h
    simp only [List.map_cons, List.flatten_cons, List.length_append]
    by_cases hk : (a.1 == k) = true
    · rw [if_pos hk]
      have h1 := encEntry_append_bet a b
      have h2 := encBet_length_pos b
      have h3 := entLen_map_ge k b t
      omega
    · rw [if_neg hk]
      have h' : (t.any fun e => e.1 == k) = true := by
        cases h with
        | inl h0 => exact absurd h0 hk
        | inr h0 => exact h0
      have := ih h'
      omega

theorem encEntry_length_pos (k : Pubkey) (v : List Bet) : 0 < (encEntry (k, v)).length := by
  simp [encEntry, encLE_length]

theorem entLen_insertBet_lt (l : List (Pubkey × List Bet)) (k : Pubkey) (b : Bet) :
    ((l.map encEntry).flatten).length <
      (((insertBet l k b).map encEntry).flatten).length := by
  unfold insertBet
  split
  · rename_i hany
    exact entLen_map_grow k b l hany
  · have hpos := encEntry_length_pos k [b]
    simp only [List.map_append, List.flatten_append, List.length_append,
      List.map_cons, List.map_nil, List.flatten_cons, List.flatten_nil,
      List.append_nil, List.length_nil]
    omega

theorem encOutcome_length_eq (o : Outcome) :
    (encOutcome o).length = 13 + ((o.bets.map encEntry).flatten).length := by
  have hs := sortEntries_enc_length o.bets
  simp only [encOutcome, List.length_append, encLE_length, hs]

theorem encOutcome_insertBet_lt (o : Outcome) (k : Pubkey) (b : Bet) :
    (encOutcome o).length < (encOutcome { o with bets := insertBet o.bets k b }).length := by
  rw [encOutcome_length_eq, encOutcome_length_eq]
  have := entLen_insertBet_lt o.bets k b
  simp only
  omega

theorem flatten_modifyAt_lt {g : α → Bytes} {f : α → α}
    (hf : ∀ a, (g a).length < (g (f a)).length) :
    ∀ (l : List α) (j : Nat), j < l.length →
    ((l.map g).flatten).length < (((modifyAt f l j).map g).flatten).length := by
  intro l
  induction l with
  | nil => intro j h; simp at h
  | cons a t ih =>
    intro j h
    cases j with
    | zero =>
      simp only [modifyAt, List.map_cons, List.flatten_cons, List.length_append]
      have := hf a
      omega
    | succ n =>
      simp only [modifyAt, List.map_cons, List.flatten_cons, List.length_append]
      have := ih n (by simpa using h)
      omega

theorem encEvent_length_eq (e : PredictionEvent) :
    (encEvent e).length = e.unique_id.length + e.creator.length + 17 +
      (encOptU8 e.winning_outcome).length + ((e.outcomes.map encOutcome).flatten).length := by
  simp [encEvent, encLE_length, List.length_append, encStatus_length]
  omega

/-- The bet insertion strictly grows the encoded size of the event. -/
theorem placeBetEvent_enc_lt {e e' : PredictionEvent} {bk : Pubkey} {ut : Bool}
    {oid amt : Nat} {bh : Int} {side : BetType}
    (h : placeBetEvent e bk ut oid amt bh side = .ok e') :
    (encEvent e).length < (encEvent e').length := by
  unfold placeBetEvent at h
  split at h
  · exact absurd h (by simp)
  · split at h
    · exact absurd h (by simp)
    · split at h
      · exact absurd h (by simp)
      · rename_i j hfind
        simp only [Except.ok.injEq] at h
        subst h
        have hj : j < e.outcomes.length := by
          rw [List.findIdx?_eq_some_iff_getElem] at hfind
          exact hfind.1
        rw [encEvent_length_eq, encEvent_length_eq]
        dsimp only
        have := flatten_modifyAt_lt
          (g := encOutcome)
          (f := fun o => { o with bets := insertBet o.bets bk ⟨bk, e.unique_id, oid, amt, bh, side⟩ })
          (fun o => encOutcome_insertBet_lt o bk ⟨bk, e.unique_id, oid, amt, bh, side⟩)
          e.outcomes j hj
        omega

theorem flatten_map_set {g : α → Bytes} : ∀ (l : List α) (i : Nat) (e e' : α),
    l[i]? = some e →
    (((l.set i e').map g).flatten).length + (g e).length =
      ((l.map g).flatten).length + (g e').length := by
  intro l
  induction l with
  | nil => intro i e e' h; simp at h
  | cons a t ih =>
    intro i e e' h
    cases i with
    | zero =>
      simp only [List.getElem?_cons_zero, Option.some.injEq] at h
      subst h
      simp only [List.set, List.map_cons, List.flatten_cons, List.length_append]
      omega
    | succ n =>
      simp only [List.getElem?_cons_succ] at h
      simp only [List.set, List.map_cons, List.flatten_cons, List.length_append]
      have := ih n e e' h
      omega

theorem encPredictions_length_eq (p : Predictions) :
    (encPredictions p).length = 8 + ((p.predictions.map encEvent).flatten).length := by
  simp [encPredictions, encLE_length, List.length_append]
  omega

/-- **C5** (amended).  For every successful `process_place_bet` call, the
bytes written back are the Borsh encoding of the single modified
`PredictionEvent` copied over the start of the account data, not a
re-encoding of the whole `Predictions` aggregate; consequently a subsequent
decode of the account as `Predictions` can no longer produce the updated
aggregate: it either fails or yields a value different from the correctly
updated aggregate (outright failure is not guaranteed — see the
counterexample theorem). -/
theorem c5_place_bet_single_event_overwrite
    (data : Bytes) (bk : Pubkey) (sg ut : Bool) (uid : Bytes) (oid amt : Nat)
    (bh : Int) (side : BetType) (out : Bytes)
    (h : process_place_bet data bk sg ut uid oid amt bh side = .ok out) :
    ∃ (agg : Predictions) (i : Nat) (e e' : PredictionEvent),
      decodePredictions data = some agg ∧
      agg.predictions[i]? = some e ∧
      placeBetEvent e bk ut oid amt bh side = .ok e' ∧
      out = encEvent e' ++ data.drop (encEvent e').length ∧
      ∀ v : Predictions, decodePredictions out = some v →
        v ≠ ⟨agg.total_predictions, agg.predictions.set i e'⟩ := by
  unfold process_place_bet at h
  split at h
  · exact absurd h (by simp)
  · split at h
    · exact absurd h (by simp)
    · rename_i agg hdec
      split at h
      · exact absurd h (by simp)
      · rename_i i hfind
        split at h
        · exact absurd h (by simp)
        · rename_i e hget
          dsimp only at h
          split at h
          · exact absurd h (by simp)
          · rename_i e' hpb
            split at h
            · rename_i hfit
              simp only [Except.ok.injEq] at h
              refine ⟨agg, i, e, e', hdec, hget, hpb, h.symm, ?_⟩
              intro v hv hcontra
              subst hcontra
              have hlenv := decodePredictions_length hv
              have hlend := decodePredictions_length hdec
              have houtlen : out.length = data.length := by
                rw [← h]
                simp only [List.length_append, List.length_drop]
                omega
              have hgt := placeBetEvent_enc_lt hpb
              have hset := flatten_map_set (g := encEvent)
                agg.predictions i e e' hget
              rw [encPredictions_length_eq] at hlenv
              rw [encPredictions_length_eq] at hlend
              simp only at hlenv
              omega
            · exact absurd h (by simp)

def c5Uid0 : Bytes := [7, 0, 0, 0, 1, 0, 0, 0] ++ List.replicate 24 0

def c5Bettor : Pubkey := [0, 0, 0, 0, 1, 0, 0, 0] ++ List.replicate 24 0

def c5E0 : PredictionEvent :=
  { unique_id := c5Uid0, creator := key0, expiry_timestamp := 0,
    outcomes := [⟨0, 33554432, []⟩], total_pool_amount := 0,
    status := .active, winning_outcome := none }

def c5E1 : PredictionEvent :=
  { unique_id := uid0, creator := key0, expiry_timestamp := 0,
    outcomes := [⟨0, 0, [(key0, [])]⟩], total_pool_amount := 0,
    status := .active, winning_outcome := none }

def c5Agg : Predictions := ⟨7, [c5E0, c5E1]⟩

def c5Data : Bytes := encPredictions c5Agg

def c5NewBet : Bet := ⟨c5Bettor, c5Uid0, 0, 7, 0, .sell⟩

def c5E0x : PredictionEvent :=
  { unique_id := c5Uid0, creator := key0, expiry_timestamp := 0,
    outcomes := [⟨0, 33554432, [(c5Bettor, [c5NewBet])]⟩], total_pool_amount := 0,
    status := .active, winning_outcome := none }

def c5Out : Bytes := encEvent c5E0x ++ c5Data.drop (encEvent c5E0x).length

set_option maxRecDepth 40000 in
/-- **C5** (counterexample to the claim as stated).  `c5Agg` decodes from
its own encoding and holds two events; `process_place_bet` succeeds on it,
overwriting the slot with the modified first event; and the resulting bytes
*still decode successfully* as `Predictions` (to a garbage aggregate), so
"a subsequent decode of that account as Predictions fails" is false. -/
theorem c5_overwritten_slot_can_still_decode :
    decodePredictions c5Data = some c5Agg ∧
    c5Agg.predictions.length = 2 ∧
    process_place_bet c5Data c5Bettor true true c5Uid0 0 7 0 .sell = .ok c5Out ∧
    (decodePredictions c5Out).isSome = true := by
  refine ⟨by decide, by decide, by decide, by decide⟩

def c5WData : Bytes := encPredictions ⟨2, [c3Event, c5E1]⟩

set_option maxRecDepth 40000 in
theorem c5_place_bet_single_event_overwrite_witness :
    ∃ (agg : Predictions) (i : Nat) (e e' : PredictionEvent),
      decodePredictions c5Data = some agg ∧
      agg.predictions[i]? = some e ∧
      placeBetEvent e c5Bettor true 0 7 0 .sell = .ok e' ∧
      c5Out = encEvent e' ++ c5Data.drop (encEvent e').length ∧
      ∀ v : Predictions, decodePredictions c5Out = some v →
        v ≠ ⟨agg.total_predictions, agg.predictions.set i e'⟩ :=
  c5_place_bet_single_event_overwrite c5Data c5Bettor true true c5Uid0 0 7 0
    .sell c5Out (by decide)

end Bango
